import Mathlib

set_option autoImplicit false

/-!
Verification of the generated-code pipeline of the AI-Powered CSV/XLS app
(`utils.py`).  Python strings are modelled as `List Char`; the string
primitives used by the source (`str.strip`, `str.split`, `str.replace`,
substring membership, `str.startswith`, `str.join`) are given explicit
executable definitions with Python's semantics.
-/

namespace CsvApp

/-- The whitespace predicate of Python's `str.strip`. -/
def pyWs (c : Char) : Bool :=
  c = ' ' || c = '\t' || c = '\n' || c = '\r' || c = '\x0b' || c = '\x0c'

/-- Python `s.strip()`: remove leading and trailing whitespace characters. -/
def pyStrip (s : List Char) : List Char :=
  ((s.dropWhile pyWs).reverse.dropWhile pyWs).reverse

/-- Fuel-indexed core of Python `s.split(pat)` for a non-empty separator
`pat`: splits on non-overlapping occurrences, scanning left to right.
The fuel only serves to make the recursion structural; `pySplit` supplies
enough fuel that the `0, s` fallback is never reached. -/
def pySplitF (pat : List Char) : Nat → List Char → List (List Char)
  | _, [] => [[]]
  | 0, s => [s]
  | fuel + 1, c :: rest =>
    if pat.isPrefixOf (c :: rest) then
      [] :: pySplitF pat fuel ((c :: rest).drop pat.length)
    else
      match pySplitF pat fuel rest with
      | [] => [[c]]
      | t :: ts => (c :: t) :: ts

/-- Python `s.split(pat)` for a non-empty separator `pat`. -/
def pySplit (pat s : List Char) : List (List Char) :=
  pySplitF pat s.length s

/-- Fuel-indexed core of Python `s.replace(pat, "")` for non-empty `pat`:
delete the non-overlapping occurrences of `pat`, scanning left to right. -/
def pyRemoveF (pat : List Char) : Nat → List Char → List Char
  | _, [] => []
  | 0, s => s
  | fuel + 1, c :: rest =>
    if pat.isPrefixOf (c :: rest) then
      pyRemoveF pat fuel ((c :: rest).drop pat.length)
    else
      c :: pyRemoveF pat fuel rest

/-- Python `s.replace(pat, "")` for a non-empty `pat`. -/
def pyRemove (pat s : List Char) : List Char :=
  pyRemoveF pat s.length s

/-- Python `pat in s`: substring membership. -/
def hasSub (pat : List Char) : List Char → Bool
  | [] => pat.isEmpty
  | c :: rest => pat.isPrefixOf (c :: rest) || hasSub pat rest

/-- Index of the first occurrence of `pat` in `s`, if any
(Python `s.find(pat)` restricted to the found case). -/
def firstIdx (pat : List Char) : List Char → Option Nat
  | [] => if pat.isEmpty then some 0 else none
  | c :: rest =>
    if pat.isPrefixOf (c :: rest) then some 0
    else (firstIdx pat rest).map (· + 1)

/-- Python list indexing `l[i]`, total with default `[]`; every use in the
pipeline is guarded so the index is in bounds, as in the source. -/
def listGetD (l : List (List Char)) (i : Nat) : List Char :=
  l.getD i []

/-- The tagged fence marker of `extract_code_from_response`. -/
def fencePy : List Char := "```python".toList

/-- The plain fence marker. -/
def fence : List Char := "```".toList

/-- `utils.extract_code_from_response`:

    if "```python" in response:
        code = response.split("```python")[1].split("```")[0].strip()
    elif "```" in response:
        code = response.split("```")[1].strip()
    else:
        code = response.strip()
    return code
-/
def extract_code_from_response (response : List Char) : List Char :=
  if hasSub fencePy response then
    pyStrip (listGetD (pySplit fence (listGetD (pySplit fencePy response) 1)) 0)
  else if hasSub fence response then
    pyStrip (listGetD (pySplit fence response) 1)
  else
    pyStrip response

/-- The display-trigger substring removed by the sanitizer. -/
def figShow : List Char := "fig.show()".toList

/-- The import-statement keyword tested by the sanitizer. -/
def kwImport : List Char := "import".toList

/-- The from-import keyword tested by the sanitizer. -/
def kwFrom : List Char := "from".toList

/-- The line filter of `clean_generated_code`: keep `line` unless its
stripped form starts with `import` or with `from`. -/
def keepLine (line : List Char) : Bool :=
  !(kwImport.isPrefixOf (pyStrip line)) && !(kwFrom.isPrefixOf (pyStrip line))

/-- `utils.clean_generated_code`:

    code = code.replace("fig.show()", "")
    lines = code.split("\n")
    cleaned_lines = [line for line in lines
                     if not line.strip().startswith("import")
                     and not line.strip().startswith("from")]
    return "\n".join(cleaned_lines)
-/
def clean_generated_code (code : List Char) : List Char :=
  List.intercalate ['\n'] ((pySplit ['\n'] (pyRemove figShow code)).filter keepLine)

/-- Python `repr` of a list of strings, as interpolated by the f-string
`f"Available columns: \x7blist(df.columns)\x7d"` (column names assumed free
of quotes, as `repr` details beyond this shape are irrelevant here). -/
def pyStrListRepr (cols : List (List Char)) : List Char :=
  '[' :: (List.intercalate ", ".toList (cols.map (fun c => '\x27' :: (c ++ ['\x27']))) ++ [']'])

/-- The instruction text built by `utils.generate_chart_code` around the
user's query and the column list. -/
def chartPrompt (query : List Char) (cols : List (List Char)) : List Char :=
  "Generate only executable Python code for a plotly chart. Task: ".toList ++ query ++
    "\nAvailable columns: ".toList ++ pyStrListRepr cols ++
    "\nRequirements:\n1. Only use plotly.express (px) or plotly.graph_objects (go)\n2. Name the figure variable \x27fig\x27\n3. Don\x27t include imports or fig.show()\n4. Use \x27df\x27 as the DataFrame name\nExample format:\nfiltered_df = df.sort_values(\x27column\x27, ascending=False).head(10)\nfig = px.bar(filtered_df, x=\x27column1\x27, y=\x27column2\x27, title=\x27Chart Title\x27)".toList

/-- `utils.generate_chart_code`, with the external model call abstracted as
the oracle `llm` (prompt text to response text) and the dataframe
represented by its column-name list, the only part the function reads.
The source performs no validation of `query`: it builds the prompt,
invokes the service, extracts and sanitizes. -/
def generate_chart_code (llm : List Char → List Char) (query : List Char)
    (columns : List (List Char)) : List Char :=
  clean_generated_code (extract_code_from_response (llm (chartPrompt query columns)))

/-- The fallback answer of `response.get("output", ...)` in `utils.get_answer`. -/
def defaultAnswer : List Char := "Sorry, I couldn\x27t find an answer to your question.".toList

/-- The contextualized question `f"Using the \x7btable_name\x7d table, \x7bquestion\x7d"`. -/
def contextualizedQuestion (tableName question : List Char) : List Char :=
  "Using the ".toList ++ tableName ++ " table, ".toList ++ question

/-- `utils.get_answer`, with the SQL agent invocation abstracted as the
oracle `agent`, which yields the "output" entry of the response
dictionary when present.  The source performs no validation of
`question`: it contextualizes it and invokes the agent. -/
def get_answer (agent : List Char → Option (List Char)) (question tableName : List Char) :
    List Char :=
  (agent (contextualizedQuestion tableName question)).getD defaultAnswer

section Execute

variable {V : Type}

/-- The execution namespace dict literal of `utils.execute_generated_code`,
as an insertion-ordered association list. -/
def initNamespace (df px go pd np : V) : List (String × V) :=
  [("df", df), ("px", px), ("go", go), ("pd", pd), ("np", np)]

/-- Dict lookup (`name in ns` / `ns[name]`) on the association-list model. -/
def lookupNS (name : String) : List (String × V) → Option V
  | [] => none
  | (k, v) :: rest => if k = name then some v else lookupNS name rest

/-- The message of the inner `raise Exception(...)` when no `fig` is bound. -/
def noFigMsg : List Char := "No figure was created (missing \x27fig\x27 variable)".toList

/-- The wrapping applied by the `except` clause:
`f"Code execution failed:\n\x7bstr(e)\x7d\nGenerated code:\n\x7bcode\x7d"`. -/
def wrapErr (e code : List Char) : List Char :=
  "Code execution failed:\n".toList ++ e ++ "\nGenerated code:\n".toList ++ code

/-- `utils.execute_generated_code`.  Host-language values are an arbitrary
type `V`; the semantics of `exec` itself (not translatable) is the
parameter `run`, which receives the executed source text and the starting
namespace and yields either a raised fault or the namespace state after
execution.  The function strips the code, runs it on the five-entry
namespace, returns the `fig` binding if present, and otherwise (or on a
fault) fails with the wrapped message. -/
def execute_generated_code
    (run : List Char → List (String × V) → Except (List Char) (List (String × V)))
    (code : List Char) (df px go pd np : V) : Except (List Char) V :=
  match run (pyStrip code) (initNamespace df px go pd np) with
  | .error e => .error (wrapErr e code)
  | .ok ns =>
    match lookupNS "fig" ns with
    | some v => .ok v
    | none => .error (wrapErr noFigMsg code)

end Execute

/-! ### Basic lemmas about the string primitives -/

theorem bool_ne_true {b : Bool} (h : b = false) : ¬ b = true := by simp [h]

theorem pySplitF_fuel (pat : List Char) (hp : pat ≠ []) :
    ∀ (fuel fuel' : Nat) (s : List Char), s.length ≤ fuel → s.length ≤ fuel' →
      pySplitF pat fuel s = pySplitF pat fuel' s := by
  have hp1 : 1 ≤ pat.length := by
    cases pat with
    | nil => exact absurd rfl hp
    | cons a t => simp
  intro fuel
  induction fuel with
  | zero =>
    intro fuel' s hs _
    have hnil : s = [] := List.length_eq_zero.mp (Nat.le_zero.mp hs)
    subst hnil
    cases fuel' <;> rfl
  | succ f ih =>
    intro fuel' s hs hs'
    cases s with
    | nil => cases fuel' <;> rfl
    | cons c rest =>
      cases fuel' with
      | zero => simp at hs'
      | succ f' =>
        simp only [pySplitF]
        by_cases h : pat.isPrefixOf (c :: rest) = true
        · rw [if_pos h, if_pos h]
          have hd : ((c :: rest).drop pat.length).length ≤ f := by
            simp only [List.length_drop, List.length_cons] at *
            omega
          have hd' : ((c :: rest).drop pat.length).length ≤ f' := by
            simp only [List.length_drop, List.length_cons] at *
            omega
          rw [ih f' _ hd hd']
        · rw [if_neg h, if_neg h]
          have hr : rest.length ≤ f := by simp at hs; omega
          have hr' : rest.length ≤ f' := by simp at hs'; omega
          rw [ih f' rest hr hr']

theorem pySplit_nil (pat : List Char) : pySplit pat [] = [[]] := rfl

theorem pySplit_cons_pos (pat : List Char) (hp : pat ≠ []) (c : Char) (rest : List Char)
    (h : pat.isPrefixOf (c :: rest) = true) :
    pySplit pat (c :: rest) = [] :: pySplit pat ((c :: rest).drop pat.length) := by
  have hp1 : 1 ≤ pat.length := by
    cases pat with
    | nil => exact absurd rfl hp
    | cons a t => simp
  show pySplitF pat (rest.length + 1) (c :: rest) = _
  simp only [pySplitF, if_pos h]
  congr 1
  exact pySplitF_fuel pat hp rest.length _ _
    (by simp only [List.length_drop, List.length_cons]; omega)
    (le_refl _)

theorem pySplit_cons_neg (pat : List Char) (c : Char) (rest : List Char)
    (h : pat.isPrefixOf (c :: rest) = false) :
    pySplit pat (c :: rest) =
      match pySplit pat rest with
      | [] => [[c]]
      | t :: ts => (c :: t) :: ts := by
  show pySplitF pat (rest.length + 1) (c :: rest) = _
  simp only [pySplitF]
  rw [if_neg (bool_ne_true h)]
  rfl

theorem pySplitF_ne_nil (pat : List Char) (fuel : Nat) (s : List Char) :
    pySplitF pat fuel s ≠ [] := by
  cases fuel with
  | zero => cases s <;> simp [pySplitF]
  | succ f =>
    cases s with
    | nil => simp [pySplitF]
    | cons c rest =>
      simp only [pySplitF]
      split
      · simp
      · split <;> simp

theorem pySplit_ne_nil (pat s : List Char) : pySplit pat s ≠ [] :=
  pySplitF_ne_nil pat s.length s

theorem pyRemove_nil (pat : List Char) : pyRemove pat [] = [] := rfl

theorem pyRemove_cons_neg (pat : List Char) (c : Char) (rest : List Char)
    (h : pat.isPrefixOf (c :: rest) = false) :
    pyRemove pat (c :: rest) = c :: pyRemove pat rest := by
  show pyRemoveF pat (rest.length + 1) (c :: rest) = _
  simp only [pyRemoveF]
  rw [if_neg (bool_ne_true h)]
  rfl

theorem hasSub_mono (p q s : List Char) (hpq : p.isPrefixOf q = true)
    (h : hasSub q s = true) : hasSub p s = true := by
  induction s with
  | nil =>
    simp only [hasSub, List.isEmpty_iff] at *
    subst h
    have := List.isPrefixOf_iff_prefix.mp hpq
    simpa [List.prefix_nil] using this
  | cons c rest ih =>
    simp only [hasSub, Bool.or_eq_true] at *
    rcases h with h | h
    · left
      exact List.isPrefixOf_iff_prefix.mpr
        (( List.isPrefixOf_iff_prefix.mp hpq).trans ( List.isPrefixOf_iff_prefix.mp h))
    · right; exact ih h

theorem firstIdx_isSome_iff (pat : List Char) (hp : pat ≠ []) (s : List Char) :
    (firstIdx pat s).isSome = true ↔ hasSub pat s = true := by
  induction s with
  | nil =>
    simp [firstIdx, hasSub, List.isEmpty_iff, hp]
  | cons c rest ih =>
    simp only [firstIdx, hasSub]
    by_cases h : pat.isPrefixOf (c :: rest) = true
    · simp [h]
    · rw [if_neg h]
      cases hfi : firstIdx pat rest with
      | none =>
        simp only [hfi] at ih
        simp at ih
        simp [h, ih]
      | some k =>
        simp only [hfi] at ih
        simp at ih
        simp [h, ih]

theorem hasSub_of_firstIdx (pat : List Char) (hp : pat ≠ []) (s : List Char) (i : Nat)
    (h : firstIdx pat s = some i) : hasSub pat s = true :=
  (firstIdx_isSome_iff pat hp s).mp (by simp [h])

theorem hasSub_eq_false_of_firstIdx_none (pat : List Char) (hp : pat ≠ []) (s : List Char)
    (h : firstIdx pat s = none) : hasSub pat s = false := by
  by_contra hne
  have := (firstIdx_isSome_iff pat hp s).mpr (by simpa using hne)
  rw [h] at this
  simp at this

theorem firstIdx_none_of_hasSub_false (pat : List Char) (hp : pat ≠ []) (s : List Char)
    (h : hasSub pat s = false) : firstIdx pat s = none := by
  cases hfi : firstIdx pat s with
  | none => rfl
  | some i =>
    rw [hasSub_of_firstIdx pat hp s i hfi] at h
    exact absurd h (by simp)

theorem pySplit_of_hasSub_false (pat : List Char) (_hp : pat ≠ []) (s : List Char)
    (h : hasSub pat s = false) : pySplit pat s = [s] := by
  induction s with
  | nil => exact pySplit_nil pat
  | cons c rest ih =>
    simp only [hasSub, Bool.or_eq_false_iff] at h
    rw [pySplit_cons_neg pat c rest h.1, ih h.2]

theorem pySplit_decomp (pat : List Char) (hp : pat ≠ []) (s : List Char) (i : Nat)
    (h : firstIdx pat s = some i) :
    pySplit pat s = s.take i :: pySplit pat (s.drop (i + pat.length)) := by
  induction s generalizing i with
  | nil =>
    simp only [firstIdx, List.isEmpty_iff, hp] at h
    simp at h
  | cons c rest ih =>
    by_cases hpre : pat.isPrefixOf (c :: rest) = true
    · rw [firstIdx] at h
      rw [if_pos hpre] at h
      cases h
      rw [pySplit_cons_pos pat hp c rest hpre]
      simp
    · rw [firstIdx] at h
      rw [if_neg hpre] at h
      cases hfi : firstIdx pat rest with
      | none => rw [hfi] at h; simp at h
      | some k =>
        rw [hfi] at h
        simp only [Option.map_some'] at h
        cases h
        rw [pySplit_cons_neg pat c rest (Bool.eq_false_iff.mpr hpre), ih k hfi]
        simp only [List.take_succ_cons]
        have harith : k + 1 + pat.length = (k + pat.length) + 1 := by omega
        rw [harith, List.drop_succ_cons]

theorem firstIdx_isPrefixOf_drop (pat : List Char) (s : List Char) (i : Nat)
    (h : firstIdx pat s = some i) : pat.isPrefixOf (s.drop i) = true := by
  induction s generalizing i with
  | nil =>
    simp only [firstIdx] at h
    split at h
    · cases h
      simp_all [List.isEmpty_iff]
    · simp at h
  | cons c rest ih =>
    rw [firstIdx] at h
    by_cases hpre : pat.isPrefixOf (c :: rest) = true
    · rw [if_pos hpre] at h
      cases h
      simpa using hpre
    · rw [if_neg hpre] at h
      cases hfi : firstIdx pat rest with
      | none => rw [hfi] at h; simp at h
      | some k =>
        rw [hfi] at h
        simp only [Option.map_some'] at h
        cases h
        rw [List.drop_succ_cons]
        exact ih k hfi

theorem firstIdx_min (pat : List Char) (s : List Char) (i : Nat)
    (h : firstIdx pat s = some i) :
    ∀ m, pat.isPrefixOf (s.drop m) = true → i ≤ m := by
  induction s generalizing i with
  | nil =>
    intro m hm
    simp only [firstIdx] at h
    split at h
    · cases h; omega
    · simp at h
  | cons c rest ih =>
    intro m hm
    rw [firstIdx] at h
    by_cases hpre : pat.isPrefixOf (c :: rest) = true
    · rw [if_pos hpre] at h; cases h; omega
    · rw [if_neg hpre] at h
      cases hfi : firstIdx pat rest with
      | none => rw [hfi] at h; simp at h
      | some k =>
        rw [hfi] at h
        simp only [Option.map_some'] at h
        cases h
        cases m with
        | zero => simp at hm; exact absurd (by simpa using hm) hpre
        | succ m' =>
          rw [List.drop_succ_cons] at hm
          exact Nat.succ_le_succ (ih k hfi m' hm)

theorem firstIdx_of_prefix_min (pat : List Char) (hp : pat ≠ []) (s : List Char) (i : Nat)
    (hpre : pat.isPrefixOf (s.drop i) = true)
    (hmin : ∀ m, m < i → pat.isPrefixOf (s.drop m) = false) :
    firstIdx pat s = some i := by
  induction s generalizing i with
  | nil =>
    exfalso
    rw [List.drop_nil] at hpre
    have := List.isPrefixOf_iff_prefix.mp hpre
    rw [List.prefix_nil] at this
    exact hp this
  | cons c rest ih =>
    cases i with
    | zero =>
      rw [List.drop_zero] at hpre
      rw [firstIdx, if_pos hpre]
    | succ i' =>
      have h0 : pat.isPrefixOf (c :: rest) = false := by
        have := hmin 0 (Nat.succ_pos i')
        simpa using this
      rw [firstIdx, if_neg (bool_ne_true h0)]
      rw [List.drop_succ_cons] at hpre
      have hmin' : ∀ m, m < i' → pat.isPrefixOf (rest.drop m) = false := by
        intro m hm
        have := hmin (m + 1) (Nat.succ_lt_succ hm)
        rwa [List.drop_succ_cons] at this
      rw [ih i' hpre hmin']
      rfl

theorem prefix_drop_bound (pat : List Char) (hp : pat ≠ []) (s : List Char) (i : Nat)
    (h : pat.isPrefixOf (s.drop i) = true) : i + pat.length ≤ s.length := by
  have hlen : pat.length ≤ (s.drop i).length :=
    ( List.isPrefixOf_iff_prefix.mp h).length_le
  have hp1 : 1 ≤ pat.length := by
    cases pat with
    | nil => exact absurd rfl hp
    | cons a t => simp
  rw [List.length_drop] at hlen
  omega

theorem isPrefixOf_drop_take_lift (pat s : List Char) (n m : Nat)
    (h : pat.isPrefixOf ((s.take n).drop m) = true) : pat.isPrefixOf (s.drop m) = true := by
  rw [ List.isPrefixOf_iff_prefix] at *
  rw [List.drop_take] at h
  exact h.trans ( List.take_prefix _ _)

theorem isPrefixOf_drop_take_of (pat s : List Char) (n m : Nat)
    (hmn : m + pat.length ≤ n)
    (h : pat.isPrefixOf (s.drop m) = true) : pat.isPrefixOf ((s.take n).drop m) = true := by
  rw [ List.isPrefixOf_iff_prefix] at *
  rw [List.drop_take]
  obtain ⟨r, hr⟩ := h
  refine ⟨r.take (n - m - pat.length), ?_⟩
  rw [← hr, List.take_append_eq_append_take]
  congr 1
  exact (List.take_of_length_le (by omega)).symm

theorem pySplit_getD_zero_none (pat : List Char) (hp : pat ≠ []) (s : List Char)
    (h : firstIdx pat s = none) : listGetD (pySplit pat s) 0 = s := by
  rw [pySplit_of_hasSub_false pat hp s (hasSub_eq_false_of_firstIdx_none pat hp s h)]
  rfl

theorem pySplit_getD_zero_some (pat : List Char) (hp : pat ≠ []) (s : List Char) (i : Nat)
    (h : firstIdx pat s = some i) : listGetD (pySplit pat s) 0 = s.take i := by
  rw [pySplit_decomp pat hp s i h]
  rfl

theorem pySplit_getD_one (pat : List Char) (hp : pat ≠ []) (s : List Char) (i : Nat)
    (h : firstIdx pat s = some i) :
    listGetD (pySplit pat s) 1 = listGetD (pySplit pat (s.drop (i + pat.length))) 0 := by
  rw [pySplit_decomp pat hp s i h]
  rfl

/-- The first-branch behavior of `extract_code_from_response`, fully
characterized: for a response whose first tagged marker ends at
`i + fencePy.length`, the result is the trimmed prefix of the remainder up
to the first closing marker, except that the search for the closing marker
is confined to the segment before the next tagged marker (a consequence of
splitting on the tagged marker first). -/
theorem extract_code_tagged_core (s : List Char) (i : Nat)
    (hi : firstIdx fencePy s = some i) :
    extract_code_from_response s =
      pyStrip (listGetD (pySplit fence (listGetD
        (pySplit fencePy (s.drop (i + fencePy.length))) 0)) 0) := by
  have hpPy : fencePy ≠ [] := by decide
  have hsub : hasSub fencePy s = true := hasSub_of_firstIdx fencePy hpPy s i hi
  simp only [extract_code_from_response, if_pos hsub]
  rw [pySplit_getD_one fencePy hpPy s i hi]

/-- Helper for the amended C4: under the no-overlap side condition, the
chunk-local closing-marker search agrees with the global one. -/
theorem extract_code_tagged_aux (after : List Char) (j' : Nat)
    (hj : firstIdx fence after = some j')
    (hov : ∀ j, firstIdx fencePy after = some j → j' + fence.length ≤ j ∨ j' = j) :
    listGetD (pySplit fence (listGetD (pySplit fencePy after) 0)) 0 = after.take j' := by
  have hpPy : fencePy ≠ [] := by decide
  have hpF : fence ≠ [] := by decide
  cases h2 : firstIdx fencePy after with
  | none =>
    rw [pySplit_getD_zero_none fencePy hpPy after h2]
    rw [pySplit_getD_zero_some fence hpF after j' hj]
  | some j =>
    rw [pySplit_getD_zero_some fencePy hpPy after j h2]
    rcases hov j h2 with hle | heq
    · have hj'pre : fence.isPrefixOf (after.drop j') = true :=
        firstIdx_isPrefixOf_drop fence after j' hj
      have hchunkpre : fence.isPrefixOf ((after.take j).drop j') = true :=
        isPrefixOf_drop_take_of fence after j j' hle hj'pre
      have hmin : ∀ m, m < j' → fence.isPrefixOf ((after.take j).drop m) = false := by
        intro m hm
        cases hx : fence.isPrefixOf ((after.take j).drop m) with
        | false => rfl
        | true =>
          exfalso
          have hlift := isPrefixOf_drop_take_lift fence after j m hx
          have := firstIdx_min fence after j' hj m hlift
          omega
      have hfi : firstIdx fence (after.take j) = some j' :=
        firstIdx_of_prefix_min fence hpF (after.take j) j' hchunkpre hmin
      rw [pySplit_getD_zero_some fence hpF (after.take j) j' hfi]
      rw [List.take_take]
      congr 1
      have : fence.length = 3 := by decide
      omega
    · subst heq
      cases h3 : firstIdx fence (after.take j') with
      | none =>
        rw [pySplit_getD_zero_none fence hpF (after.take j') h3]
      | some k =>
        exfalso
        have hkpre := firstIdx_isPrefixOf_drop fence (after.take j') k h3
        have hbound := prefix_drop_bound fence hpF (after.take j') k hkpre
        have hlift := isPrefixOf_drop_take_lift fence after j' k hkpre
        have hmin := firstIdx_min fence after j' hj k hlift
        have hlen : (after.take j').length ≤ j' := by
          rw [List.length_take]
          omega
        have hf3 : fence.length = 3 := by decide
        omega

/-! ### Claim C4 -/

/-- C4 (amended): for every response text containing a fenced block tagged
as Python code — first tagged opening marker at index `i`, next closing
marker at offset `j'` after it — `extract_code_from_response` returns
exactly the text strictly between the first tagged opening marker and that
closing marker, trimmed of leading and trailing whitespace, provided the
closing marker does not overlap a later occurrence of the tagged opening
marker (in particular whenever the tagged opening marker does not occur
again after the first one). -/
theorem extract_code_between_markers (s : List Char) (i j' : Nat)
    (hi : firstIdx fencePy s = some i)
    (hj : firstIdx fence (s.drop (i + fencePy.length)) = some j')
    (hov : ∀ j, firstIdx fencePy (s.drop (i + fencePy.length)) = some j →
        j' + fence.length ≤ j ∨ j' = j) :
    extract_code_from_response s = pyStrip ((s.drop (i + fencePy.length)).take j') := by
  rw [extract_code_tagged_core s i hi, extract_code_tagged_aux _ j' hj hov]

/-- Witness for C4 (amended) at a concrete response with one tagged block:
the extracted fragment is the trimmed text between the markers. -/
theorem extract_code_between_markers_witness :
    extract_code_from_response "pre ```python\nfig = 1\n``` post".toList =
      pyStrip ((("pre ```python\nfig = 1\n``` post".toList).drop (4 + fencePy.length)).take 9) :=
  extract_code_between_markers _ 4 9 (by decide) (by decide)
    (fun j h => by
      rw [show firstIdx fencePy (("pre ```python\nfig = 1\n``` post".toList).drop
        (4 + fencePy.length)) = none from by decide] at h
      exact Option.noConfusion h)

/-- C4 counterexample: in `"```python x ````python"` the first tagged
opening marker is at index 0 and the next closing marker starts 3
characters after it ends, yet `extract_code_from_response` does not return
the trimmed text strictly between the two markers (it returns `"x `"`,
with the stray backtick, instead of `"x"`): the closing-marker search is
confined to the segment before the second tagged marker, which the first
closing marker overlaps. -/
theorem extract_code_not_between_markers :
    firstIdx fencePy "```python x ````python".toList = some 0 ∧
    firstIdx fence (("```python x ````python".toList).drop (0 + fencePy.length)) = some 3 ∧
    extract_code_from_response "```python x ````python".toList ≠
      pyStrip ((("```python x ````python".toList).drop (0 + fencePy.length)).take 3) :=
  ⟨by decide, by decide, by decide⟩

/-! ### Claim C5 -/

/-- C5: `extract_code_from_response` is a total function (by construction,
every branch yields a value), and on every response text containing no
fenced marker at all it returns the whole input trimmed of leading and
trailing whitespace. -/
theorem extract_code_no_fence (s : List Char) (h : hasSub fence s = false) :
    extract_code_from_response s = pyStrip s := by
  have hPy : hasSub fencePy s = false := by
    cases hx : hasSub fencePy s with
    | false => rfl
    | true =>
      have hf := hasSub_mono fence fencePy s (by decide) hx
      rw [h] at hf
      exact absurd hf (by simp)
  simp only [extract_code_from_response, if_neg (bool_ne_true hPy), if_neg (bool_ne_true h)]

/-- Witness for C5 at a concrete fence-free response. -/
theorem extract_code_no_fence_witness :
    extract_code_from_response "  hello world  ".toList = pyStrip "  hello world  ".toList :=
  extract_code_no_fence _ (by decide)

/-! ### Lemmas about single-character splitting and joining -/

theorem isPrefixOf_single (c a : Char) (t : List Char) :
    [c].isPrefixOf (a :: t) = (c == a) := by
  simp [List.isPrefixOf]

theorem hasSub_single_of_not_mem (c : Char) (s : List Char) (h : c ∉ s) :
    hasSub [c] s = false := by
  induction s with
  | nil => rfl
  | cons a rest ih =>
    have hca : ¬ c = a := fun hc => h (hc ▸ List.mem_cons_self a rest)
    have hcr : c ∉ rest := fun hc => h (List.mem_cons_of_mem a hc)
    simp [hasSub, isPrefixOf_single, ih hcr, hca]

theorem mem_pySplit_single (c : Char) (s : List Char) :
    ∀ l ∈ pySplit [c] s, c ∉ l := by
  induction s with
  | nil =>
    intro l hl
    rw [pySplit_nil] at hl
    simp at hl
    subst hl
    simp
  | cons a rest ih =>
    intro l hl
    by_cases hca : c = a
    · subst hca
      rw [pySplit_cons_pos [c] (by simp) c rest (by simp [isPrefixOf_single])] at hl
      simp only [List.length_cons, List.length_nil, List.drop_succ_cons, List.drop_zero] at hl
      rcases List.mem_cons.mp hl with hcase | hcase
      · subst hcase; simp
      · exact ih l hcase
    · rw [pySplit_cons_neg [c] a rest
        (by rw [isPrefixOf_single]; exact beq_eq_false_iff_ne.mpr hca)] at hl
      obtain ⟨t, ts, hts⟩ := List.exists_cons_of_ne_nil (pySplit_ne_nil [c] rest)
      rw [hts] at hl
      simp only at hl
      rcases List.mem_cons.mp hl with hcase | hcase
      · subst hcase
        intro hmem
        rcases List.mem_cons.mp hmem with hcase | hcase
        · exact hca hcase
        · exact ih t (hts ▸ List.mem_cons_self t ts) hcase
      · exact ih l (hts ▸ List.mem_cons_of_mem t hcase)

theorem pySplit_single_append (c : Char) (t : List Char) :
    ∀ (l : List Char), c ∉ l → pySplit [c] (l ++ c :: t) = l :: pySplit [c] t := by
  intro l
  induction l with
  | nil =>
    intro _
    rw [List.nil_append, pySplit_cons_pos [c] (by simp) c t (by simp [isPrefixOf_single])]
    simp
  | cons a l2 ih =>
    intro hc
    have hca : ¬ c = a := fun h => hc (h ▸ List.mem_cons_self a l2)
    have hcl : c ∉ l2 := fun h => hc (List.mem_cons_of_mem a h)
    rw [List.cons_append, pySplit_cons_neg [c] a (l2 ++ c :: t)
      (by rw [isPrefixOf_single]; exact beq_eq_false_iff_ne.mpr hca)]
    rw [ih hcl]

theorem pySplit_intercalate (c : Char) :
    ∀ (ls : List (List Char)), ls ≠ [] → (∀ l ∈ ls, c ∉ l) →
      pySplit [c] (List.intercalate [c] ls) = ls := by
  intro ls
  induction ls with
  | nil => intro h _; exact absurd rfl h
  | cons l ls2 ih =>
    intro _ hmem
    cases ls2 with
    | nil =>
      have hint : List.intercalate [c] [l] = l := by
        simp [List.intercalate, List.intersperse]
      rw [hint]
      exact pySplit_of_hasSub_false [c] (by simp) l
        (hasSub_single_of_not_mem c l (hmem l (List.mem_cons_self _ _)))
    | cons l2 ls3 =>
      have hint : List.intercalate [c] (l :: l2 :: ls3) =
          l ++ c :: List.intercalate [c] (l2 :: ls3) := by
        simp [List.intercalate, List.intersperse]
      rw [hint]
      rw [pySplit_single_append c _ l (hmem l (List.mem_cons_self _ _))]
      rw [ih (by simp) (fun x hx => hmem x (List.mem_cons_of_mem _ hx))]

theorem pyRemove_of_hasSub_false (pat : List Char) (s : List Char)
    (h : hasSub pat s = false) : pyRemove pat s = s := by
  induction s with
  | nil => rfl
  | cons c rest ih =>
    simp only [hasSub, Bool.or_eq_false_iff] at h
    rw [pyRemove_cons_neg pat c rest h.1, ih h.2]

/-- The line list of the sanitized output is the filtered line list of the
input after show-call removal, whenever at least one line survives. -/
theorem clean_lines_eq (code : List Char)
    (h : (pySplit ['\n'] (pyRemove figShow code)).filter keepLine ≠ []) :
    pySplit ['\n'] (clean_generated_code code)
      = (pySplit ['\n'] (pyRemove figShow code)).filter keepLine := by
  apply pySplit_intercalate '\n' _ h
  intro l hl
  exact mem_pySplit_single '\n' (pyRemove figShow code) l ((List.filter_sublist _).subset hl)

/-! ### Claim C6 -/

/-- C6: `clean_generated_code` removes every occurrence of the
display-trigger substring `fig.show()` (the left-to-right non-overlapping
removal of Python `str.replace`) and then drops exactly the lines whose
trimmed content begins with `import` or `from`, preserving the relative
order and content of all other lines, blank lines included: whenever at
least one line survives, the line list of the output is precisely the
`keepLine`-filtered line list of the show-call-free input, and every
surviving line passes the filter. -/
theorem clean_code_lines_spec (code : List Char)
    (h : (pySplit ['\n'] (pyRemove figShow code)).filter keepLine ≠ []) :
    pySplit ['\n'] (clean_generated_code code)
        = (pySplit ['\n'] (pyRemove figShow code)).filter keepLine ∧
      ∀ l ∈ pySplit ['\n'] (clean_generated_code code), keepLine l = true := by
  have heq := clean_lines_eq code h
  exact ⟨heq, fun l hl => (List.mem_filter.mp (heq ▸ hl)).2⟩

/-- Witness for C6 at a concrete fragment mixing an import line, a kept
line, a blank line, and a show call. -/
theorem clean_code_lines_spec_witness :
    pySplit ['\n'] (clean_generated_code "a = 1\nimport os\n\nfig.show()b".toList)
      = (pySplit ['\n'] (pyRemove figShow "a = 1\nimport os\n\nfig.show()b".toList)).filter
          keepLine :=
  (clean_code_lines_spec _ (by decide)).1

/-! ### Claim C7 -/

/-- C7 counterexample: sanitization is not idempotent.  In
`"fig.showfig.show()()"` the single removal pass deletes the middle
occurrence of `fig.show()` and thereby splices the surrounding text into a
new occurrence, which only a second pass removes. -/
theorem clean_code_not_idempotent :
    clean_generated_code (clean_generated_code "fig.showfig.show()()".toList) ≠
      clean_generated_code "fig.showfig.show()()".toList := by decide

/-- C7 (amended): sanitization is idempotent on every fragment whose
sanitized output contains no residual occurrence of the display-trigger
substring (removal of non-overlapping occurrences can splice adjacent text
into a new occurrence; on every other input a second application returns
the first output unchanged). -/
theorem clean_code_idempotent (x : List Char)
    (h : hasSub figShow (clean_generated_code x) = false) :
    clean_generated_code (clean_generated_code x) = clean_generated_code x := by
  have hnoop : pyRemove figShow (clean_generated_code x) = clean_generated_code x :=
    pyRemove_of_hasSub_false figShow _ h
  show List.intercalate ['\n']
      ((pySplit ['\n'] (pyRemove figShow (clean_generated_code x))).filter keepLine)
    = clean_generated_code x
  rw [hnoop]
  cases hK : (pySplit ['\n'] (pyRemove figShow x)).filter keepLine with
  | nil =>
    have hx : clean_generated_code x = [] := by
      rw [clean_generated_code, hK]
      rfl
    rw [hx]
    decide
  | cons k ks =>
    have hlines := clean_lines_eq x (by rw [hK]; simp)
    rw [hlines]
    rw [List.filter_eq_self.mpr (fun a ha => (List.mem_filter.mp ha).2)]
    rfl

/-- Witness for C7 (amended) at a concrete fragment whose sanitized output
has no residual show call. -/
theorem clean_code_idempotent_witness :
    clean_generated_code
        (clean_generated_code "import pandas as pd\nfig = px.bar(df)\nfig.show()".toList)
      = clean_generated_code "import pandas as pd\nfig = px.bar(df)\nfig.show()".toList :=
  clean_code_idempotent _ (by decide)

/-! ### Claim C8 -/

/-- C8 counterexample: on the spec's sanitizer scenario input the output is
not `"\nfig = px.bar(df)\n"`; the filtered import line is dropped
entirely rather than leaving a blank line in its place. -/
theorem clean_code_example_not_blank :
    clean_generated_code "import pandas as pd\nfig = px.bar(df)\nfig.show()".toList ≠
      "\nfig = px.bar(df)\n".toList := by decide

/-- C8 (amended): on the input
`"import pandas as pd\nfig = px.bar(df)\nfig.show()"`,
`clean_generated_code` returns exactly `"fig = px.bar(df)\n"`: the import
line is removed without leaving a blank line, the show call is removed,
and the trailing empty line left by its removal is preserved. -/
theorem clean_code_example :
    clean_generated_code "import pandas as pd\nfig = px.bar(df)\nfig.show()".toList =
      "fig = px.bar(df)\n".toList := by decide

/-! ### Claim C10 -/

/-- C10: the sanitizer's import detection is pure textual prefix matching
on the trimmed line, so a line starting with a longer identifier such as
`important_var` or `fromage` is removed even though it is not an import
statement; in general no line of the output has trimmed content starting
with the character sequences `import` or `from`. -/
theorem clean_code_prefix_matching :
    clean_generated_code "important_var = 1\nfromage = 2\nx = 3".toList = "x = 3".toList ∧
    ∀ (code l : List Char), l ∈ pySplit ['\n'] (clean_generated_code code) →
      kwImport.isPrefixOf (pyStrip l) = false ∧ kwFrom.isPrefixOf (pyStrip l) = false := by
  constructor
  · decide
  · intro code l hl
    cases hK : (pySplit ['\n'] (pyRemove figShow code)).filter keepLine with
    | nil =>
      have hx : clean_generated_code code = [] := by
        rw [clean_generated_code, hK]
        rfl
      rw [hx, pySplit_nil] at hl
      simp at hl
      subst hl
      exact ⟨by decide, by decide⟩
    | cons k ks =>
      have hlines := clean_lines_eq code (by rw [hK]; simp)
      rw [hlines] at hl
      have hkeep := (List.mem_filter.mp hl).2
      rw [keepLine, Bool.and_eq_true] at hkeep
      exact ⟨by simpa using hkeep.1, by simpa using hkeep.2⟩

/-- Witness for C10: the surviving line of the concrete run satisfies the
no-import-prefix property. -/
theorem clean_code_prefix_matching_witness :
    kwImport.isPrefixOf (pyStrip "x = 3".toList) = false ∧
      kwFrom.isPrefixOf (pyStrip "x = 3".toList) = false :=
  clean_code_prefix_matching.2 "important_var = 1\nfromage = 2\nx = 3".toList
    "x = 3".toList (by decide)

/-! ### Lemmas about the error wrapping of the executor -/

theorem code_infix_wrapErr (e code : List Char) : code <:+: wrapErr e code :=
  List.IsSuffix.isInfix ⟨"Code execution failed:\n".toList ++ e ++ "\nGenerated code:\n".toList,
    by simp [wrapErr]⟩

theorem err_infix_wrapErr (e code : List Char) : e <:+: wrapErr e code :=
  ⟨"Code execution failed:\n".toList, "\nGenerated code:\n".toList ++ code, by simp [wrapErr]⟩

/-! ### Claim C1 -/

/-- C1: for every execution semantics `run`, every fragment whose execution
succeeds and leaves a binding `fig ↦ v` in the namespace, and every
dataset and library handles, `execute_generated_code` returns exactly `v`
as a success value (it does not fail). -/
theorem execute_code_returns_fig {V : Type}
    (run : List Char → List (String × V) → Except (List Char) (List (String × V)))
    (code : List Char) (df px go pd np : V) (ns : List (String × V)) (v : V)
    (hrun : run (pyStrip code) (initNamespace df px go pd np) = .ok ns)
    (hfig : lookupNS "fig" ns = some v) :
    execute_generated_code run code df px go pd np = .ok v := by
  simp [execute_generated_code, hrun, hfig]

/-- Witness for C1 at a concrete execution semantics that binds `fig`. -/
theorem execute_code_returns_fig_witness :
    execute_generated_code
        (fun _ ns => (Except.ok (("fig", (7 : Nat)) :: ns)))
        "fig = 7".toList 0 1 2 3 4 = .ok 7 :=
  execute_code_returns_fig _ "fig = 7".toList 0 1 2 3 4 _ 7 rfl (by decide)

/-! ### Claim C2 -/

/-- C2: `execute_generated_code` fails exactly when the executed fragment
raises a fault or leaves no `fig` binding in the namespace, and in every
failure case the error message contains both the underlying fault
description (the raised fault text, or the missing-binding message) and
the full fragment source text. -/
theorem execute_code_error_spec {V : Type}
    (run : List Char → List (String × V) → Except (List Char) (List (String × V)))
    (code : List Char) (df px go pd np : V) :
    ((∃ m, execute_generated_code run code df px go pd np = .error m) ↔
      (∃ e, run (pyStrip code) (initNamespace df px go pd np) = .error e) ∨
        (∃ ns, run (pyStrip code) (initNamespace df px go pd np) = .ok ns ∧
          lookupNS "fig" ns = none)) ∧
    ∀ m, execute_generated_code run code df px go pd np = .error m →
      code <:+: m ∧ ∃ e, e <:+: m ∧
        (run (pyStrip code) (initNamespace df px go pd np) = .error e ∨ e = noFigMsg) := by
  cases hrun : run (pyStrip code) (initNamespace df px go pd np) with
  | error e =>
    have hx : execute_generated_code run code df px go pd np = .error (wrapErr e code) := by
      simp [execute_generated_code, hrun]
    refine ⟨⟨fun _ => Or.inl ⟨e, rfl⟩, fun _ => ⟨wrapErr e code, hx⟩⟩, ?_⟩
    intro m hm
    rw [hx] at hm
    injection hm with hm
    subst hm
    exact ⟨code_infix_wrapErr e code, ⟨e, err_infix_wrapErr e code, Or.inl rfl⟩⟩
  | ok ns =>
    cases hfig : lookupNS "fig" ns with
    | some v =>
      have hx : execute_generated_code run code df px go pd np = .ok v := by
        simp [execute_generated_code, hrun, hfig]
      refine ⟨⟨?_, ?_⟩, ?_⟩
      · rintro ⟨m, hm⟩
        rw [hx] at hm
        simp at hm
      · rintro (⟨e, he⟩ | ⟨ns2, hns, hnone⟩)
        · simp at he
        · injection hns with hns
          subst hns
          rw [hfig] at hnone
          simp at hnone
      · intro m hm
        rw [hx] at hm
        simp at hm
    | none =>
      have hx : execute_generated_code run code df px go pd np
          = .error (wrapErr noFigMsg code) := by
        simp [execute_generated_code, hrun, hfig]
      refine ⟨⟨fun _ => Or.inr ⟨ns, rfl, hfig⟩, fun _ => ⟨wrapErr noFigMsg code, hx⟩⟩, ?_⟩
      intro m hm
      rw [hx] at hm
      injection hm with hm
      subst hm
      exact ⟨code_infix_wrapErr _ code, ⟨noFigMsg, err_infix_wrapErr _ code, Or.inr rfl⟩⟩

/-- Witness for C2 at a concrete always-faulting execution semantics. -/
theorem execute_code_error_spec_witness :
    ∃ m, execute_generated_code
        (fun _ _ => (Except.error "boom".toList : Except (List Char) (List (String × Nat))))
        "x".toList 0 0 0 0 0 = .error m :=
  (execute_code_error_spec _ "x".toList 0 0 0 0 0).1.mpr (Or.inl ⟨"boom".toList, rfl⟩)

/-! ### Claim C3 -/

/-- C3: the namespace handed to the executed fragment initially contains
exactly the five bindings `df`, `px`, `go`, `pd`, `np` (in insertion
order, bound to the dataset and the four library handles), and every name
resolvable in it is one of those five with its corresponding value — in
this embedding no other binding of the hosting process is reachable by
name. -/
theorem execute_namespace_exactly_five {V : Type} (df px go pd np : V) :
    (initNamespace df px go pd np).map Prod.fst = ["df", "px", "go", "pd", "np"] ∧
    ∀ (name : String) (v : V), lookupNS name (initNamespace df px go pd np) = some v →
      (name = "df" ∧ v = df) ∨ (name = "px" ∧ v = px) ∨ (name = "go" ∧ v = go) ∨
        (name = "pd" ∧ v = pd) ∨ (name = "np" ∧ v = np) := by
  refine ⟨rfl, ?_⟩
  intro name v h
  simp only [initNamespace, lookupNS] at h
  split_ifs at h with h1 h2 h3 h4 h5
  · exact Or.inl ⟨h1.symm, (Option.some.inj h).symm⟩
  · exact Or.inr (Or.inl ⟨h2.symm, (Option.some.inj h).symm⟩)
  · exact Or.inr (Or.inr (Or.inl ⟨h3.symm, (Option.some.inj h).symm⟩))
  · exact Or.inr (Or.inr (Or.inr (Or.inl ⟨h4.symm, (Option.some.inj h).symm⟩)))
  · exact Or.inr (Or.inr (Or.inr (Or.inr ⟨h5.symm, (Option.some.inj h).symm⟩)))

/-- Witness for C3: looking up `px` in a concrete namespace yields the
`px` handle. -/
theorem execute_namespace_exactly_five_witness :
    ("px" = "df" ∧ (2 : Nat) = 1) ∨ ("px" = "px" ∧ (2 : Nat) = 2) ∨
      ("px" = "go" ∧ (2 : Nat) = 3) ∨ ("px" = "pd" ∧ (2 : Nat) = 4) ∨
      ("px" = "np" ∧ (2 : Nat) = 5) :=
  (execute_namespace_exactly_five 1 2 3 4 5).2 "px" 2 (by decide)

/-! ### Claim C9 -/

/-- C9 counterexample: called directly with an empty query, neither
`generate_chart_code` nor `get_answer` rejects the input; both invoke the
external service and return a value derived from its response — here a
successful chart fragment, resp. the agent's answer. -/
theorem empty_query_not_rejected :
    generate_chart_code (fun _ => "```python\nfig = px.bar(df, x=\x27a\x27)\n```".toList)
        [] ["a".toList] = "fig = px.bar(df, x=\x27a\x27)".toList ∧
    get_answer (fun _ => some "there are 3 rows".toList) [] "current_data".toList
      = "there are 3 rows".toList :=
  ⟨by decide, rfl⟩

/-- C9 (amended): the core functions perform no emptiness check — for every
oracle, a call with the empty query builds the prompt or contextualized
question around the empty text, invokes the external service, and returns
the processed response; rejecting empty queries is left entirely to the
caller (the UI layer tests the query for truthiness before calling). -/
theorem empty_query_flows_to_service :
    (∀ (llm : List Char → List Char) (cols : List (List Char)),
      generate_chart_code llm [] cols
        = clean_generated_code (extract_code_from_response (llm (chartPrompt [] cols)))) ∧
    (∀ (agent : List Char → Option (List Char)) (tbl : List Char),
      get_answer agent [] tbl
        = (agent (contextualizedQuestion tbl [])).getD defaultAnswer) ∧
    generate_chart_code (fun _ => "```python\nfig = px.line(df)\n```".toList) [] []
      = "fig = px.line(df)".toList :=
  ⟨fun _ _ => rfl, fun _ _ => rfl, by decide⟩

end CsvApp
